import Mathlib

/-!
# Verification of the brush stroke engine (`src/brush.rs`)

A shallow embedding of the brush engine: integer points, the brush mode
set (a `BTreeSet<BrushMode>` modelled as a key-sorted duplicate-free
list), the stroke state machine (`start_drawing` / `draw`), the
Bresenham line rasterizer, the pixel-perfect corner filter, the
symmetry / multi-frame expansion, and the circular footprint
rasterizer.  Machine integers (`i32`) are modelled as `Int`; the claims
considered never exercise overflow.  Rust's truncating `/` on `i32` is
modelled by `Int.tdiv` (or, for nonnegative operands, plain `/`).
-/

/-- An integer 2D point, mirroring `Point2<i32>` (and `ViewCoords<i32>`,
which is representationally the same). -/
structure Point2 where
  x : Int
  y : Int
deriving DecidableEq, Repr

/-- An RGBA color, mirroring `Rgba8` (from `crate::gfx`, payload only:
the claims only ever compare colors for equality). -/
structure Rgba8 where
  r : Nat
  g : Nat
  b : Nat
  a : Nat
deriving DecidableEq, Repr

/-- `Rgba8::TRANSPARENT`. -/
def Rgba8.transparent : Rgba8 := ⟨0, 0, 0, 0⟩

/-- `Rgba8::WHITE`. -/
def Rgba8.white : Rgba8 := ⟨255, 255, 255, 255⟩

/-- `ViewExtent { fw, fh, nframes }` (from `crate::view`): a horizontal
strip of `nframes` frames, each `fw × fh` pixels. -/
structure ViewExtent where
  fw : Nat
  fh : Nat
  nframes : Nat
deriving DecidableEq, Repr

/-- `BrushMode`: the tagged variants of the brush mode set.  The `line`
variant carries an optional snap angle in degrees (`Option<u32>`,
modelled as `Option Nat`). -/
inductive BrushMode where
  | erase
  | multi
  | perfect
  | xsym
  | ysym
  | xray
  | line (snap : Option Nat)
deriving DecidableEq, Repr

/-- The `Ord` key of a `BrushMode`: the derived Rust `Ord` orders by
variant (declaration order), and within `Line` by `Option<u32>`
(`None < Some s`, `Some` by value).  This injective key into `Nat`
realizes exactly that order. -/
def BrushMode.key : BrushMode → Nat
  | .erase => 0
  | .multi => 1
  | .perfect => 2
  | .xsym => 3
  | .ysym => 4
  | .xray => 5
  | .line none => 6
  | .line (some s) => 7 + s

/-- Whether a mode is a `Line(_)` variant (`matches!(m, BrushMode::Line(_))`). -/
def BrushMode.isLine : BrushMode → Bool
  | .line _ => true
  | _ => false

/-- Ordered insertion into the key-sorted mode list, mirroring
`BTreeSet::insert`: returns the new list and whether the value was
newly inserted. -/
def insertMode (m : BrushMode) : List BrushMode → List BrushMode × Bool
  | [] => ([m], true)
  | n :: rest =>
    if m.key < n.key then (m :: n :: rest, true)
    else if m.key = n.key then (n :: rest, false)
    else
      let r := insertMode m rest
      (n :: r.1, r.2)

/-- Removal from the mode list, mirroring `BTreeSet::remove`: removes
the (first, hence on a duplicate-free list the unique) occurrence and
returns whether the value was present. -/
def removeMode (m : BrushMode) (l : List BrushMode) : List BrushMode × Bool :=
  (l.erase m, decide (m ∈ l))

/-- The first `Line(_)` variant in ascending key order, mirroring
`Brush::line_mode` (`self.modes.iter().filter(is Line).next()`). -/
def lineModeOf (l : List BrushMode) : Option BrushMode :=
  l.find? BrushMode.isLine

/-- `BrushState`: the stroke lifecycle state, carrying the extent
captured at stroke start. -/
inductive BrushState where
  | notDrawing
  | drawStarted (extent : ViewExtent)
  | drawing (extent : ViewExtent)
  | drawEnded (extent : ViewExtent)
deriving DecidableEq, Repr

/-- The `Brush` aggregate.  The `BTreeSet<BrushMode>` is modelled as a
key-sorted duplicate-free list (the representation every reachable
brush maintains); `curr`/`prev` are the last two raw cursor samples. -/
structure Brush where
  size : Nat
  state : BrushState
  stroke : List Point2
  color : Rgba8
  modes : List BrushMode
  curr : Point2
  prev : Point2
deriving DecidableEq, Repr

/-- `Brush::default()`. -/
def Brush.default : Brush :=
  { size := 1
    state := .notDrawing
    stroke := []
    color := Rgba8.transparent
    modes := []
    curr := ⟨0, 0⟩
    prev := ⟨0, 0⟩ }

/-- `Brush::is_set`. -/
def Brush.is_set (b : Brush) (m : BrushMode) : Bool :=
  decide (m ∈ b.modes)

/-- `Brush::unset`: if any `Line(_)` variant is active and `m` is a
`Line(_)` variant, remove the active line mode (whatever its snap
value); otherwise remove `m` itself.  Returns whether something was
removed. -/
def Brush.unset (b : Brush) (m : BrushMode) : Brush × Bool :=
  match lineModeOf b.modes, m with
  | some lm, .line _ =>
    let r := removeMode lm b.modes
    ({ b with modes := r.1 }, r.2)
  | _, _ =>
    let r := removeMode m b.modes
    ({ b with modes := r.1 }, r.2)

/-- `Brush::set`: if `m` is a `Line(_)` variant, first unset any active
line mode, then insert `m`.  Returns whether `m` was newly inserted. -/
def Brush.set (b : Brush) (m : BrushMode) : Brush × Bool :=
  let b1 :=
    match m with
    | .line _ =>
      match lineModeOf b.modes with
      | some lm => (b.unset lm).1
      | none => b
    | _ => b
  let r := insertMode m b1.modes
  ({ b1 with modes := r.1 }, r.2)

/-- `Brush::toggle`. -/
def Brush.toggle (b : Brush) (m : BrushMode) : Brush :=
  if b.is_set m then (b.unset m).1 else (b.set m).1

/-- `Brush::reset`: clears all modes. -/
def Brush.reset (b : Brush) : Brush :=
  { b with modes := [] }

/-- `Brush::is_drawing`. -/
def Brush.is_drawing (b : Brush) : Bool :=
  decide (b.state ≠ .notDrawing)

/-- `Brush::update`: on `DrawEnded`, transition to `NotDrawing` and
clear the stroke; otherwise a no-op. -/
def Brush.update (b : Brush) : Brush :=
  match b.state with
  | .drawEnded _ => { b with state := .notDrawing, stroke := [] }
  | _ => b

/-- `Brush::stop_drawing`: valid from `DrawStarted`/`Drawing` only
(`unreachable!` otherwise, modelled as `none`). -/
def Brush.stop_drawing (b : Brush) : Option Brush :=
  match b.state with
  | .drawStarted ex => some { b with state := .drawEnded ex }
  | .drawing ex => some { b with state := .drawEnded ex }
  | _ => none

/-!
## Bresenham line rasterizer (`Brush::line`)

The loop body is embedded step by step.  Because the Rust loop has no
syntactic bound, it is embedded with explicit fuel; `lineOpt` runs it
with fuel `dx + dy + 1`, and `lineLoop_isSome` below proves that this
fuel always reaches the `p0 == p1` break, i.e. that the loop
terminates.
-/

/-- One iteration of the stepping part of `Brush::line`'s loop: both
`if`s test the saved `err2` (the value of `err1` at the top of the
iteration). -/
def lineStep (dx dy sx sy : Int) (p : Point2) (e : Int) : Point2 × Int :=
  let x1 := if e > -dx then p.x + sx else p.x
  let e1 := if e > -dx then e - dy else e
  let y1 := if e < dy then p.y + sy else p.y
  let e2 := if e < dy then e1 + dx else e1
  (⟨x1, y1⟩, e2)

/-- The fueled loop of `Brush::line`: push `p0`, break when
`p0 == p1`, else step.  `none` means the fuel ran out before the
break. -/
def lineLoop (p1 : Point2) (dx dy sx sy : Int) : Nat → Point2 → Int → Option (List Point2)
  | 0, _, _ => none
  | Nat.succ fuel, p0, e =>
    if p0 = p1 then some [p0]
    else
      match lineLoop p1 dx dy sx sy fuel (lineStep dx dy sx sy p0 e).1 (lineStep dx dy sx sy p0 e).2 with
      | none => none
      | some l => some (p0 :: l)

/-- `Brush::line` with its initialization.  `err1`'s initializer
`(if dx > dy { dx } else { -dy }) / 2` uses Rust's truncating division;
since `dx, dy ≥ 0`, `dx / 2` (truncating) equals `dx / 2` (Euclidean)
and `(-dy) / 2` (truncating) equals `-(dy / 2)` (Euclidean), which is
written here. -/
def lineOpt (p0 p1 : Point2) : Option (List Point2) :=
  let dx := |p1.x - p0.x|
  let dy := |p1.y - p0.y|
  let sx : Int := if p0.x < p1.x then 1 else -1
  let sy : Int := if p0.y < p1.y then 1 else -1
  let e0 : Int := if dx > dy then dx / 2 else -(dy / 2)
  lineLoop p1 dx dy sx sy ((dx + dy).toNat + 1) p0 e0

/-- The list of points produced by `Brush::line` from `p0` to `p1`.
(`lineLoop_isSome` proves the default branch is never taken.) -/
def bresenham (p0 p1 : Point2) : List Point2 :=
  (lineOpt p0 p1).getD []

/-!
## Corner filter (`Brush::filter`) and consecutive dedup
-/

/-- The corner condition of `Brush::filter` on a window
`(prev, curr, next)`. -/
def rightAngleCorner (p c n : Point2) : Prop :=
  (p.y = c.y ∧ n.x = c.x) ∨ (p.x = c.x ∧ n.y = c.y)

instance (p c n : Point2) : Decidable (rightAngleCorner p c n) := by
  unfold rightAngleCorner; infer_instance

/-- The `windows(3)` pass of `Brush::filter`: on a corner, emit `next`
and skip the following window; otherwise emit `curr` and advance one
window. -/
def filterGo : List Point2 → List Point2
  | p :: c :: n :: rest =>
    if rightAngleCorner p c n then n :: filterGo (n :: rest)
    else c :: filterGo (c :: n :: rest)
  | _ => []

/-- `Brush::filter`: the first element, the windowed pass, then the
last element. -/
def Brush.filter (stroke : List Point2) : List Point2 :=
  stroke.head?.toList ++ filterGo stroke ++ stroke.getLast?.toList

/-- Whether the list has some consecutive right-angle window (used to
state the corner-filter idempotence claim). -/
def hasRightAngle : List Point2 → Bool
  | p :: c :: n :: rest =>
    decide (rightAngleCorner p c n) || hasRightAngle (c :: n :: rest)
  | _ => false

/-- `Vec::dedup`: remove consecutive repeated elements. -/
def dedupConsec : List Point2 → List Point2
  | [] => []
  | [a] => [a]
  | a :: b :: rest =>
    if a = b then dedupConsec (b :: rest) else a :: dedupConsec (b :: rest)

/-!
## The stroke step (`Brush::draw`, `Brush::start_drawing`)

The snap-angle endpoint of the `Line(Some θ)` sub-mode is computed in
the source with `f32` trigonometry through `vector_angle`
(`crate::util`, not part of the sources under verification); the whole
endpoint computation is abstracted as a function parameter
`se : start → current → snap → endpoint`.  Modelled from the spec:
for coincident `start`/`current` the distance factor is `0`, so the
endpoint is `start` itself; theorems needing this degenerate case take
it as a hypothesis on `se`.
-/

/-- The stroke computation of `Brush::draw` as a function of the mode
list, the two updated cursor samples, and the previous stroke buffer.
In a line mode the buffer is cleared and rebuilt from the anchor
(`stroke.first().unwrap_or(&p)`); otherwise `Brush::line` appends the
segment from `prev` to `curr` onto the existing buffer, which is then
`dedup`ed.  Finally `Perfect` mode corner-filters the whole buffer. -/
def strokeAfterDraw (se : Point2 → Point2 → Nat → Point2) (modes : List BrushMode)
    (prev curr : Point2) (old : List Point2) : List Point2 :=
  let base :=
    match lineModeOf modes with
    | some (.line snap) =>
      let anchor := old.head?.getD curr
      let q := match snap with
        | none => curr
        | some s => se anchor curr s
      bresenham anchor q
    | _ => dedupConsec (old ++ bresenham prev curr)
  if decide (BrushMode.perfect ∈ modes) then Brush.filter base else base

/-- `Brush::draw`: valid from `DrawStarted`/`Drawing` only
(`unreachable!` otherwise, modelled as `none`).  Updates
`prev`/`curr`, recomputes the stroke, and advances
`DrawStarted → Drawing`. -/
def Brush.draw (se : Point2 → Point2 → Nat → Point2) (b : Brush) (p : Point2) : Option Brush :=
  match b.state with
  | .drawStarted ex =>
    some { b with
      prev := p
      curr := p
      stroke := strokeAfterDraw se b.modes p p b.stroke
      state := .drawing ex }
  | .drawing ex =>
    some { b with
      prev := b.curr
      curr := p
      stroke := strokeAfterDraw se b.modes b.curr p b.stroke
      state := .drawing ex }
  | _ => none

/-- `Brush::start_drawing`: set `DrawStarted`, record the color, reset
the stroke buffer, then perform one `draw` step. -/
def Brush.start_drawing (se : Point2 → Point2 → Nat → Point2) (b : Brush) (p : Point2)
    (color : Rgba8) (extent : ViewExtent) : Option Brush :=
  Brush.draw se { b with state := .drawStarted extent, color := color, stroke := [] } p

/-!
## Expansion (`Brush::expand`)
-/

/-- `Brush::expand`: starting from the single point, apply `XSym`,
`YSym`, `Multi` in that order, each appending over the accumulated
list.  `p.x / fw` is Rust's truncating `i32` division, `Int.tdiv`;
an empty Rust range `0..k` for `k ≤ 0` is an empty `List.range`. -/
def Brush.expand (b : Brush) (p : Point2) (ex : ViewExtent) : List Point2 :=
  let fw : Int := ex.fw
  let ps0 := [p]
  let ps1 :=
    if b.is_set .xsym then
      ps0 ++ ps0.map (fun q =>
        let fi := Int.tdiv q.x fw
        Point2.mk ((fi + 1) * fw - (q.x - fi * fw) - 1) q.y)
    else ps0
  let ps2 :=
    if b.is_set .ysym then
      ps1 ++ ps1.map (fun q => Point2.mk q.x ((ex.fh : Int) - q.y - 1))
    else ps1
  if b.is_set .multi then
    ps2 ++ ps2.flatMap (fun q =>
      let fi := Int.tdiv q.x fw
      (List.range ((ex.nframes : Int) - fi).toNat).map
        (fun i : Nat => Point2.mk (q.x + (i : Int) * fw) q.y))
  else ps2

/-!
## Circular footprint rasterizer (`Brush::paint`)

The `f32` arithmetic is modelled over `ℚ`; the comparison
`sqrt(dx² + dy²) ≤ radius` is expressed equivalently (for exact
arithmetic) as `dx² + dy² ≤ radius² ∧ 0 ≤ radius`.  Modelled from the
spec: `PixelsMut` (`crate::pixels`, not in the sources) iterates every
grid cell `(x, y)` with `x < w`, `y < h` exactly once, so the buffer
is modelled as a function of the coordinates.
-/

/-- The diameter-dependent bias of `Brush::paint`:
`0` for `diameter ≤ 2`, `1/2` for `2 < diameter ≤ 3`, else `0`. -/
def circleBias (diameter : ℚ) : ℚ :=
  if diameter ≤ 2 then 0
  else if diameter ≤ 3 then 1/2
  else 0

/-- `radius = diameter / 2 - bias`. -/
def circleRadius (diameter : ℚ) : ℚ :=
  diameter / 2 - circleBias diameter

/-- Whether the circle of the given center and diameter covers the
pixel `(x, y)`: center distance at most `circleRadius diameter`. -/
def paintCovers (px py diameter : ℚ) (x y : Nat) : Prop :=
  ((x : ℚ) - px)^2 + ((y : ℚ) - py)^2 ≤ (circleRadius diameter)^2
    ∧ 0 ≤ circleRadius diameter

instance (px py diameter : ℚ) (x y : Nat) : Decidable (paintCovers px py diameter x y) := by
  unfold paintCovers; infer_instance

/-- `Brush::paint` as a transformation of the pixel grid. -/
def Brush.paint (w h : Nat) (px py diameter : ℚ) (color : Rgba8)
    (grid : Nat → Nat → Rgba8) (x y : Nat) : Rgba8 :=
  if x < w ∧ y < h ∧ paintCovers px py diameter x y then color else grid x y

/-!
## Reachability of brush states through the mode interface
-/

/-- The brush mode-set states reachable from `Brush::default()` by any
sequence of `set`, `unset`, `toggle`, `reset` calls. -/
inductive ReachableBrush : Brush → Prop where
  | init : ReachableBrush Brush.default
  | set (m : BrushMode) {b : Brush} : ReachableBrush b → ReachableBrush (b.set m).1
  | unset (m : BrushMode) {b : Brush} : ReachableBrush b → ReachableBrush (b.unset m).1
  | toggle (m : BrushMode) {b : Brush} : ReachableBrush b → ReachableBrush (b.toggle m)
  | reset {b : Brush} : ReachableBrush b → ReachableBrush b.reset

/-- The mode list is sorted strictly by key (the `BTreeSet`
representation invariant). -/
def SortedModes (l : List BrushMode) : Prop :=
  l.Pairwise (fun a b => a.key < b.key)

/-- At most one `Line(_)` variant is present. -/
def atMostOneLine (l : List BrushMode) : Prop :=
  l.countP BrushMode.isLine ≤ 1

/-- The mode-list well-formedness every reachable brush maintains:
the `BTreeSet` representation invariant plus the one-line-mode rule. -/
def ModesWF (l : List BrushMode) : Prop :=
  SortedModes l ∧ atMostOneLine l

/-- The eviction step performed by `Brush::set` before inserting: a
`Line(_)` argument first removes the active line mode, if any. -/
def evictLine (m : BrushMode) (l : List BrushMode) : List BrushMode :=
  match m with
  | .line _ =>
    match lineModeOf l with
    | some lm => l.erase lm
    | none => l
  | _ => l

/-- Adjacency of consecutive rasterized points: at most one pixel
apart in each axis. -/
def adjacentPt (a b : Point2) : Prop :=
  (b.x - a.x).natAbs ≤ 1 ∧ (b.y - a.y).natAbs ≤ 1

/-- The loop invariant of `Brush::line`: `dx`/`dy` are the fixed total
distances, `e0` the initial error, `rx`/`ry` the remaining distances
from the current point to `p1` (measured along the step directions),
and `e` the current error accumulator. -/
def LineInv (dx dy e0 rx ry e : Int) : Prop :=
  0 ≤ rx ∧ rx ≤ dx ∧ 0 ≤ ry ∧ ry ≤ dy ∧
  e = e0 + rx * dy - ry * dx ∧
  (if dy < dx then 0 ≤ e ∧ e ≤ dx - 1
   else (dy = 0 ∧ e = 0) ∨ (1 ≤ dy ∧ 1 - dy ≤ e ∧ e ≤ 0))

/-!
## Mode-set lemmas
-/

theorem BrushMode.key_inj : ∀ {a b : BrushMode}, a.key = b.key → a = b := by
  intro a b h
  rcases a with _ | _ | _ | _ | _ | _ | sa <;>
    rcases b with _ | _ | _ | _ | _ | _ | sb <;>
      try rfl
  all_goals try (rcases sa with _ | va)
  all_goals try (rcases sb with _ | vb)
  all_goals simp only [BrushMode.key] at h
  all_goals try rfl
  all_goals try omega
  all_goals (have : va = vb := by omega)
  all_goals rw [this]

theorem insertMode_cons_lt {m n : BrushMode} {rest : List BrushMode}
    (h : m.key < n.key) : insertMode m (n :: rest) = (m :: n :: rest, true) := by
  simp only [insertMode]
  rw [if_pos h]

theorem insertMode_cons_keq {m n : BrushMode} {rest : List BrushMode}
    (h : m.key = n.key) : insertMode m (n :: rest) = (n :: rest, false) := by
  simp only [insertMode]
  rw [if_neg (by omega), if_pos h]

theorem insertMode_cons_gt {m n : BrushMode} {rest : List BrushMode}
    (h : n.key < m.key) : insertMode m (n :: rest) =
      (n :: (insertMode m rest).1, (insertMode m rest).2) := by
  simp only [insertMode]
  rw [if_neg (by omega), if_neg (by omega)]

theorem insertMode_mem (m a : BrushMode) :
    ∀ l : List BrushMode, a ∈ (insertMode m l).1 ↔ a = m ∨ a ∈ l := by
  intro l
  induction l with
  | nil => simp [insertMode]
  | cons n rest ih =>
    rcases Nat.lt_trichotomy m.key n.key with h | h | h
    · rw [insertMode_cons_lt h]
      simp [List.mem_cons]
    · have hmn : m = n := BrushMode.key_inj h
      subst hmn
      rw [insertMode_cons_keq rfl]
      simp only [List.mem_cons]
      tauto
    · rw [insertMode_cons_gt h]
      simp only [List.mem_cons, ih]
      tauto

theorem insertMode_ret (m : BrushMode) :
    ∀ l : List BrushMode, SortedModes l → ((insertMode m l).2 = true ↔ m ∉ l) := by
  intro l
  induction l with
  | nil => simp [insertMode]
  | cons n rest ih =>
    intro hs
    rw [SortedModes, List.pairwise_cons] at hs
    rcases Nat.lt_trichotomy m.key n.key with h | h | h
    · rw [insertMode_cons_lt h]
      constructor
      · intro _ hmem
        rcases List.mem_cons.mp hmem with hh | hh
        · subst hh; omega
        · have := hs.1 m hh; omega
      · intro _; rfl
    · have hmn : m = n := BrushMode.key_inj h
      subst hmn
      rw [insertMode_cons_keq rfl]
      simp
    · have hmn : m ≠ n := fun he => by subst he; omega
      rw [insertMode_cons_gt h]
      simp only [List.mem_cons]
      rw [ih hs.2]
      tauto

theorem insertMode_sorted (m : BrushMode) :
    ∀ l : List BrushMode, SortedModes l → SortedModes (insertMode m l).1 := by
  intro l
  induction l with
  | nil => intro _; simp [insertMode, SortedModes]
  | cons n rest ih =>
    intro hs
    rw [SortedModes, List.pairwise_cons] at hs
    rcases Nat.lt_trichotomy m.key n.key with h | h | h
    · rw [insertMode_cons_lt h]
      rw [SortedModes, List.pairwise_cons]
      refine ⟨?_, hs.2.cons hs.1⟩
      intro a ha
      rcases List.mem_cons.mp ha with hh | hh
      · subst hh; exact h
      · exact Nat.lt_trans h (hs.1 a hh)
    · have hmn : m = n := BrushMode.key_inj h
      subst hmn
      rw [insertMode_cons_keq rfl]
      exact hs.2.cons hs.1
    · rw [insertMode_cons_gt h]
      rw [SortedModes, List.pairwise_cons]
      refine ⟨?_, ih hs.2⟩
      intro a ha
      rcases (insertMode_mem m a rest).mp ha with hh | hh
      · subst hh; omega
      · exact hs.1 a hh

theorem insertMode_eq_or_perm (m : BrushMode) :
    ∀ l : List BrushMode, (insertMode m l).1 = l ∨ (insertMode m l).1.Perm (m :: l) := by
  intro l
  induction l with
  | nil => right; simp [insertMode]
  | cons n rest ih =>
    rcases Nat.lt_trichotomy m.key n.key with h | h | h
    · right; rw [insertMode_cons_lt h]
    · left; rw [insertMode_cons_keq h]
    · rw [insertMode_cons_gt h]
      rcases ih with hh | hh
      · left; rw [hh]
      · right
        exact (hh.cons n).trans (List.Perm.swap m n rest)

theorem SortedModes.nodup {l : List BrushMode} (h : SortedModes l) : l.Nodup :=
  h.imp (fun hab => by intro he; subst he; omega)

theorem lineModeOf_isLine {l : List BrushMode} {lm : BrushMode}
    (h : lineModeOf l = some lm) : lm.isLine = true :=
  List.find?_some h

theorem lineModeOf_mem {l : List BrushMode} {lm : BrushMode}
    (h : lineModeOf l = some lm) : lm ∈ l :=
  List.mem_of_find?_eq_some h

theorem lineModeOf_none {l : List BrushMode} (h : lineModeOf l = none) :
    ∀ m ∈ l, m.isLine = false := by
  intro m hm
  have := List.find?_eq_none.mp h m hm
  simpa using this

theorem countP_line_pos {l : List BrushMode} {m : BrushMode}
    (hm : m ∈ l) (hline : m.isLine = true) : 1 ≤ l.countP BrushMode.isLine := by
  have : 0 < l.countP BrushMode.isLine := List.countP_pos_iff.mpr ⟨m, hm, hline⟩
  omega

theorem countP_line_cons_true {t : List BrushMode} {a : BrushMode}
    (ha : a.isLine = true) :
    (a :: t).countP BrushMode.isLine = t.countP BrushMode.isLine + 1 := by
  rw [List.countP_cons, ha]
  simp

theorem countP_line_cons_le (a : BrushMode) (t : List BrushMode) :
    t.countP BrushMode.isLine ≤ (a :: t).countP BrushMode.isLine := by
  rw [List.countP_cons]
  omega

theorem line_mem_unique {l : List BrushMode} (h : atMostOneLine l)
    {m₁ m₂ : BrushMode} (h₁ : m₁ ∈ l) (h₂ : m₂ ∈ l)
    (hl₁ : m₁.isLine = true) (hl₂ : m₂.isLine = true) : m₁ = m₂ := by
  rw [atMostOneLine] at h
  induction l with
  | nil => cases h₁
  | cons a t ih =>
    rcases List.mem_cons.mp h₁ with e₁ | e₁ <;> rcases List.mem_cons.mp h₂ with e₂ | e₂
    · exact e₁.trans e₂.symm
    · subst e₁
      have hp := countP_line_pos e₂ hl₂
      rw [countP_line_cons_true hl₁] at h
      omega
    · subst e₂
      have hp := countP_line_pos e₁ hl₁
      rw [countP_line_cons_true hl₂] at h
      omega
    · have hle := countP_line_cons_le a t
      exact ih (by omega) e₁ e₂

theorem erase_line_countP {l : List BrushMode} {lm : BrushMode}
    (hmem : lm ∈ l) (hline : lm.isLine = true) :
    (l.erase lm).countP BrushMode.isLine = l.countP BrushMode.isLine - 1 := by
  have hperm := List.perm_cons_erase hmem
  have hc := hperm.countP_eq BrushMode.isLine
  rw [countP_line_cons_true hline] at hc
  omega

theorem evictLine_line_some {l : List BrushMode} {lm : BrushMode} (s : Option Nat)
    (hl : lineModeOf l = some lm) : evictLine (.line s) l = l.erase lm := by
  rw [evictLine, hl]

theorem evictLine_line_none {l : List BrushMode} (s : Option Nat)
    (hl : lineModeOf l = none) : evictLine (.line s) l = l := by
  rw [evictLine, hl]

theorem evictLine_nonline {m : BrushMode} (hm : m.isLine = false)
    (l : List BrushMode) : evictLine m l = l := by
  cases m <;> first
    | rfl
    | simp [BrushMode.isLine] at hm

theorem evictLine_line_countP {l : List BrushMode} (s : Option Nat)
    (h : atMostOneLine l) :
    (evictLine (.line s) l).countP BrushMode.isLine = 0 := by
  cases hl : lineModeOf l with
  | none =>
    rw [evictLine_line_none s hl, List.countP_eq_zero]
    exact fun a ha => by simpa using lineModeOf_none hl a ha
  | some lm =>
    rw [evictLine_line_some s hl]
    have hmem := lineModeOf_mem hl
    have hline := lineModeOf_isLine hl
    have h1 := countP_line_pos hmem hline
    have h2 := erase_line_countP hmem hline
    rw [atMostOneLine] at h
    omega

theorem evictLine_sorted (m : BrushMode) {l : List BrushMode} (h : SortedModes l) :
    SortedModes (evictLine m l) := by
  cases hm : m.isLine with
  | false => rw [evictLine_nonline hm]; exact h
  | true =>
    cases m with
    | line s =>
      cases hl : lineModeOf l with
      | none => rw [evictLine_line_none s hl]; exact h
      | some lm =>
        rw [evictLine_line_some s hl]
        exact List.Pairwise.sublist (List.erase_sublist lm l) h
    | _ => simp [BrushMode.isLine] at hm

theorem evictLine_countP_le (m : BrushMode) (l : List BrushMode) :
    (evictLine m l).countP BrushMode.isLine ≤ l.countP BrushMode.isLine := by
  cases hm : m.isLine with
  | false => rw [evictLine_nonline hm]
  | true =>
    cases m with
    | line s =>
      cases hl : lineModeOf l with
      | none => rw [evictLine_line_none s hl]
      | some lm =>
        rw [evictLine_line_some s hl]
        exact (List.erase_sublist lm l).countP_le _
    | _ => simp [BrushMode.isLine] at hm

theorem insertMode_countP_le (m : BrushMode) (l : List BrushMode) :
    (insertMode m l).1.countP BrushMode.isLine ≤
      l.countP BrushMode.isLine + (if m.isLine then 1 else 0) := by
  rcases insertMode_eq_or_perm m l with h | h
  · rw [h]
    exact Nat.le_add_right _ _
  · rw [h.countP_eq, List.countP_cons]

theorem Brush.unset_line_some {b : Brush} {lm : BrushMode} (s : Option Nat)
    (hl : lineModeOf b.modes = some lm) :
    b.unset (.line s) = ({ b with modes := b.modes.erase lm }, decide (lm ∈ b.modes)) := by
  rw [Brush.unset.eq_def, hl]
  rfl

theorem Brush.unset_modes_erase (b : Brush) (m : BrushMode) :
    ∃ r : BrushMode, (b.unset m).1.modes = b.modes.erase r := by
  rw [Brush.unset.eq_def]
  cases hl : lineModeOf b.modes <;> cases m <;> exact ⟨_, rfl⟩

theorem Brush.set_eq (b : Brush) (m : BrushMode) :
    b.set m = ({ b with modes := (insertMode m (evictLine m b.modes)).1 },
               (insertMode m (evictLine m b.modes)).2) := by
  cases m with
  | line s =>
    cases hl : lineModeOf b.modes with
    | none => rw [Brush.set.eq_def, hl, evictLine_line_none s hl]
    | some lm =>
      have hline := lineModeOf_isLine hl
      cases lm with
      | line t =>
        rw [Brush.set.eq_def, hl]
        dsimp only
        rw [Brush.unset_line_some t hl, evictLine_line_some s hl]
      | _ => simp [BrushMode.isLine] at hline
  | _ => rfl

theorem Brush.set_modes (b : Brush) (m : BrushMode) :
    (b.set m).1.modes = (insertMode m (evictLine m b.modes)).1 := by
  rw [Brush.set_eq]

theorem Brush.set_ret (b : Brush) (m : BrushMode) :
    (b.set m).2 = (insertMode m (evictLine m b.modes)).2 := by
  rw [Brush.set_eq]

theorem modesWF_set (b : Brush) (m : BrushMode) (h : ModesWF b.modes) :
    ModesWF (b.set m).1.modes := by
  rw [Brush.set_modes]
  constructor
  · exact insertMode_sorted m _ (evictLine_sorted m h.1)
  · rw [atMostOneLine]
    have hle := insertMode_countP_le m (evictLine m b.modes)
    cases hm : m.isLine with
    | true =>
      cases m with
      | line s =>
        have h0 := evictLine_line_countP s h.2
        rw [hm] at hle
        simp only [if_true] at hle
        omega
      | _ => simp [BrushMode.isLine] at hm
    | false =>
      have h1 := evictLine_countP_le m b.modes
      have h2 := h.2
      rw [atMostOneLine] at h2
      rw [hm] at hle
      simp only [Bool.false_eq_true, if_false] at hle
      omega

theorem modesWF_unset (b : Brush) (m : BrushMode) (h : ModesWF b.modes) :
    ModesWF (b.unset m).1.modes := by
  obtain ⟨r, hr⟩ := Brush.unset_modes_erase b m
  rw [hr]
  exact ⟨List.Pairwise.sublist (List.erase_sublist r b.modes) h.1,
    Nat.le_trans ((List.erase_sublist r b.modes).countP_le _) h.2⟩

theorem modesWF_toggle (b : Brush) (m : BrushMode) (h : ModesWF b.modes) :
    ModesWF (b.toggle m).modes := by
  rw [Brush.toggle]
  by_cases hs : b.is_set m = true
  · rw [if_pos hs]; exact modesWF_unset b m h
  · rw [if_neg hs]; exact modesWF_set b m h

theorem reachable_wf {b : Brush} (h : ReachableBrush b) : ModesWF b.modes := by
  induction h with
  | init =>
    constructor
    · simp [Brush.default, SortedModes]
    · simp [Brush.default, atMostOneLine]
  | set m hb ih => exact modesWF_set _ m ih
  | unset m hb ih => exact modesWF_unset _ m ih
  | toggle m hb ih => exact modesWF_toggle _ m ih
  | reset hb ih =>
    constructor
    · simp [Brush.reset, SortedModes]
    · simp [Brush.reset, atMostOneLine]

theorem evictLine_mem_nonline (s : Option Nat) {m : BrushMode} (hm : m.isLine = false)
    (l : List BrushMode) : m ∈ evictLine (.line s) l ↔ m ∈ l := by
  cases hl : lineModeOf l with
  | none => rw [evictLine_line_none s hl]
  | some lm =>
    rw [evictLine_line_some s hl]
    have hline := lineModeOf_isLine hl
    have hne : m ≠ lm := fun he => by rw [he, hline] at hm; cases hm
    exact List.mem_erase_of_ne hne

/-- **C5.** For every mode `m` and reachable mode-set state, `set m`
returns `true` iff `m` was not active immediately before the call *or*
`m` is a `Line(_)` variant (in the latter case the active line mode is
first evicted, so the insertion — and hence a `true` return — always
happens, even when `m` itself was the active line mode). -/
theorem claim_c5_set_ret (b : Brush) (m : BrushMode) (hr : ReachableBrush b) :
    ((b.set m).2 = true ↔ (b.is_set m = false ∨ m.isLine = true)) := by
  have hwf := reachable_wf hr
  rw [Brush.set_ret]
  cases hm : m.isLine with
  | true =>
    cases m with
    | line s =>
      have hs := evictLine_sorted (.line s) hwf.1
      have h0 := evictLine_line_countP s hwf.2
      have hnotmem : (BrushMode.line s) ∉ evictLine (.line s) b.modes := by
        intro hmem
        have := countP_line_pos hmem (by rfl)
        omega
      have hret := (insertMode_ret (.line s) _ hs).mpr hnotmem
      simp [hret]
    | _ => simp [BrushMode.isLine] at hm
  | false =>
    rw [evictLine_nonline hm, insertMode_ret m _ hwf.1, Brush.is_set]
    simp [hm]

theorem claim_c5_witness :
    ((Brush.default.set .erase).2 = true ↔
      (Brush.default.is_set .erase = false ∨ BrushMode.isLine .erase = true)) :=
  claim_c5_set_ret Brush.default .erase ReachableBrush.init

theorem claim_c5_counterexample :
    (Brush.default.set (.line (some 5))).1.is_set (.line (some 5)) = true ∧
    ((Brush.default.set (.line (some 5))).1.set (.line (some 5))).2 = true := by
  constructor <;> decide

/-- **C7.** The `Line(_)` variants form a class: `set (Line a)` leaves
`Line a` active, no other `Line` variant active, and every non-line
mode unchanged; from the default brush, `set (Line (Some 15))` then
`set (Line None)` leaves exactly the one mode `Line None`; and
`unset (Line x)` — for any `x`, matching or not — removes whichever
`Line` variant is currently present (returning `true`). -/
theorem claim_c7_line_class :
    (∀ (b : Brush) (a : Option Nat), ReachableBrush b →
      ((b.set (.line a)).1.is_set (.line a) = true ∧
       (∀ c : Option Nat, c ≠ a → (b.set (.line a)).1.is_set (.line c) = false) ∧
       (∀ m : BrushMode, m.isLine = false → (b.set (.line a)).1.is_set m = b.is_set m))) ∧
    (((Brush.default.set (.line (some 15))).1.set (.line none)).1.modes = [.line none]) ∧
    (∀ (b : Brush) (x : Option Nat) (lm : BrushMode), ReachableBrush b →
      lineModeOf b.modes = some lm →
      ((b.unset (.line x)).1.modes = b.modes.erase lm ∧
       (b.unset (.line x)).2 = true ∧
       (b.unset (.line x)).1.is_set lm = false)) := by
  refine ⟨?_, by decide, ?_⟩
  · intro b a hr
    have hwf := reachable_wf hr
    have h0 := evictLine_line_countP a hwf.2
    refine ⟨?_, ?_, ?_⟩
    · rw [Brush.is_set, Brush.set_modes]
      simp only [decide_eq_true_eq]
      exact (insertMode_mem _ _ _).mpr (Or.inl rfl)
    · intro c hc
      rw [Brush.is_set, Brush.set_modes]
      simp only [decide_eq_false_iff_not]
      intro hmem
      rcases (insertMode_mem _ _ _).mp hmem with h | h
      · exact hc (by injection h)
      · have := countP_line_pos h (by rfl)
        omega
    · intro m hm
      rw [Brush.is_set, Brush.is_set, Brush.set_modes]
      have hiff : m ∈ (insertMode (.line a) (evictLine (.line a) b.modes)).1 ↔ m ∈ b.modes := by
        rw [insertMode_mem]
        constructor
        · intro h
          rcases h with h | h
          · rw [h, BrushMode.isLine] at hm; cases hm
          · exact (evictLine_mem_nonline a hm b.modes).mp h
        · intro h
          exact Or.inr ((evictLine_mem_nonline a hm b.modes).mpr h)
      simp [hiff]
  · intro b x lm hr hl
    have hwf := reachable_wf hr
    have hmem := lineModeOf_mem hl
    rw [Brush.unset_line_some x hl]
    refine ⟨rfl, by simpa using hmem, ?_⟩
    rw [Brush.is_set]
    simp only [decide_eq_false_iff_not]
    intro hmem2
    have := (hwf.1.nodup.mem_erase_iff).mp hmem2
    exact this.1 rfl

theorem claim_c7_witness :
    ((Brush.default.set (.line (some 7))).1.set (.line none)).1.is_set (.line none) = true ∧
    (((Brush.default.set (.line none)).1.unset (.line (some 99))).1.modes =
      (Brush.default.set (.line none)).1.modes.erase (.line none)) := by
  constructor
  · exact (claim_c7_line_class.1 (Brush.default.set (.line (some 7))).1 none
      (ReachableBrush.set _ ReachableBrush.init)).1
  · exact ((claim_c7_line_class.2.2 (Brush.default.set (.line none)).1 (some 99) (.line none)
      (ReachableBrush.set _ ReachableBrush.init) (by decide))).1

/-- **C8.** Invariant: starting from the default (empty) mode set,
after any sequence of `set`, `unset`, `toggle`, `reset` operations, at
most one `Line(_)` variant is present in the mode set. -/
theorem claim_c8_one_line (b : Brush) (hr : ReachableBrush b) : atMostOneLine b.modes :=
  (reachable_wf hr).2

theorem claim_c8_witness :
    atMostOneLine (((Brush.default.set (.line (some 15))).1.set (.line none)).1.modes) :=
  claim_c8_one_line _ (ReachableBrush.set _ (ReachableBrush.set _ ReachableBrush.init))

/-!
## Bresenham lemmas
-/

theorem lineStep_x (dx dy sx sy : Int) (p : Point2) (e : Int) :
    ((lineStep dx dy sx sy p e).1).x = if e > -dx then p.x + sx else p.x := rfl

theorem lineStep_y (dx dy sx sy : Int) (p : Point2) (e : Int) :
    ((lineStep dx dy sx sy p e).1).y = if e < dy then p.y + sy else p.y := rfl

theorem lineStep_e (dx dy sx sy : Int) (p : Point2) (e : Int) :
    (lineStep dx dy sx sy p e).2 =
      if e < dy then (if e > -dx then e - dy else e) + dx
      else (if e > -dx then e - dy else e) := rfl

theorem lineInv_step {dx dy e0 rx ry e : Int} (hdx : 0 ≤ dx) (hdy : 0 ≤ dy)
    (he0 : e0 = if dy < dx then dx / 2 else -(dy / 2))
    (hinv : LineInv dx dy e0 rx ry e) (hne : ¬(rx = 0 ∧ ry = 0)) :
    LineInv dx dy e0 (if e > -dx then rx - 1 else rx) (if e < dy then ry - 1 else ry)
      (if e < dy then (if e > -dx then e - dy else e) + dx
       else (if e > -dx then e - dy else e)) ∧
    (if e > -dx then rx - 1 else rx) + (if e < dy then ry - 1 else ry) < rx + ry := by
  obtain ⟨hrx0, hrxD, hry0, hryE, hcons, hbnd⟩ := hinv
  have humul1 : 1 ≤ rx → dy ≤ rx * dy := fun h => le_mul_of_one_le_left hdy h
  have hvmul1 : 1 ≤ ry → dx ≤ ry * dx := fun h => le_mul_of_one_le_left hdx h
  rcases (by omega : rx = 0 ∨ 1 ≤ rx) with hrxc | hrxc <;>
    rcases (by omega : ry = 0 ∨ 1 ≤ ry) with hryc | hryc
  · exact absurd ⟨hrxc, hryc⟩ hne
  all_goals
    first
      | (have hu : rx * dy = 0 := by rw [hrxc, zero_mul]) | (have hu : dy ≤ rx * dy := humul1 hrxc)
  all_goals
    first
      | (have hv : ry * dx = 0 := by rw [hryc, zero_mul]) | (have hv : dx ≤ ry * dx := hvmul1 hryc)
  all_goals simp only [LineInv]
  all_goals by_cases hmaj : dy < dx
  all_goals first
    | rw [if_pos hmaj] at he0 hbnd ⊢
    | rw [if_neg hmaj] at he0 hbnd ⊢
  all_goals
    refine ⟨⟨?_, ?_, ?_, ?_, ?_, ?_⟩, ?_⟩ <;>
      first
        | (split_ifs <;> omega)
        | (split_ifs <;> linear_combination hcons)

theorem lineLoop_isSome (dx dy : Int) (hdx : 0 ≤ dx) (hdy : 0 ≤ dy)
    (sx sy : Int) (hsx : sx = 1 ∨ sx = -1) (hsy : sy = 1 ∨ sy = -1)
    (p1 : Point2) (e0 : Int) (he0 : e0 = if dy < dx then dx / 2 else -(dy / 2)) :
    ∀ (fuel : Nat) (p0 : Point2) (e : Int),
      LineInv dx dy e0 (sx * (p1.x - p0.x)) (sy * (p1.y - p0.y)) e →
      sx * (p1.x - p0.x) + sy * (p1.y - p0.y) < (fuel : Int) →
      (lineLoop p1 dx dy sx sy fuel p0 e).isSome = true := by
  intro fuel
  induction fuel with
  | zero =>
    intro p0 e hinv hlt
    exfalso
    obtain ⟨h1, _, h2, _, _, _⟩ := hinv
    omega
  | succ n ih =>
    intro p0 e hinv hlt
    by_cases hp : p0 = p1
    · simp [lineLoop, hp]
    · have hne : ¬(sx * (p1.x - p0.x) = 0 ∧ sy * (p1.y - p0.y) = 0) := by
        rintro ⟨h1, h2⟩
        apply hp
        have hx : p1.x = p0.x := by rcases hsx with h | h <;> rw [h] at h1 <;> omega
        have hy : p1.y = p0.y := by rcases hsy with h | h <;> rw [h] at h2 <;> omega
        cases p0; cases p1
        simp_all
      have hstep := lineInv_step hdx hdy he0 hinv hne
      have hxs : sx * (p1.x - (lineStep dx dy sx sy p0 e).1.x)
          = (if e > -dx then sx * (p1.x - p0.x) - 1 else sx * (p1.x - p0.x)) := by
        rw [lineStep_x]
        split_ifs with h
        · rcases hsx with h1 | h1 <;> rw [h1] <;> ring
        · rfl
      have hys : sy * (p1.y - (lineStep dx dy sx sy p0 e).1.y)
          = (if e < dy then sy * (p1.y - p0.y) - 1 else sy * (p1.y - p0.y)) := by
        rw [lineStep_y]
        split_ifs with h
        · rcases hsy with h1 | h1 <;> rw [h1] <;> ring
        · rfl
      have hinv2 : LineInv dx dy e0 (sx * (p1.x - (lineStep dx dy sx sy p0 e).1.x))
          (sy * (p1.y - (lineStep dx dy sx sy p0 e).1.y)) ((lineStep dx dy sx sy p0 e).2) := by
        rw [hxs, hys, lineStep_e]
        exact hstep.1
      have hmeas : sx * (p1.x - (lineStep dx dy sx sy p0 e).1.x)
          + sy * (p1.y - (lineStep dx dy sx sy p0 e).1.y) < (n : Int) := by
        rw [hxs, hys]
        have hm := hstep.2
        push_cast at hlt ⊢
        split_ifs at hm ⊢ <;> omega
      have hsome := ih (lineStep dx dy sx sy p0 e).1 (lineStep dx dy sx sy p0 e).2 hinv2 hmeas
      obtain ⟨l, hl⟩ := Option.isSome_iff_exists.mp hsome
      simp [lineLoop, hp, hl]

theorem lineOpt_isSome (p0 p1 : Point2) : (lineOpt p0 p1).isSome = true := by
  show (lineLoop p1 |p1.x - p0.x| |p1.y - p0.y|
      (if p0.x < p1.x then 1 else -1) (if p0.y < p1.y then 1 else -1)
      ((|p1.x - p0.x| + |p1.y - p0.y|).toNat + 1) p0
      (if |p1.x - p0.x| > |p1.y - p0.y| then |p1.x - p0.x| / 2
       else -(|p1.y - p0.y| / 2))).isSome = true
  have hrx : (if p0.x < p1.x then (1 : Int) else -1) * (p1.x - p0.x) = |p1.x - p0.x| := by
    split_ifs with h
    · rw [one_mul, abs_of_nonneg (by omega)]
    · rw [neg_one_mul, ← abs_neg, abs_of_nonneg (by omega)]
  have hry : (if p0.y < p1.y then (1 : Int) else -1) * (p1.y - p0.y) = |p1.y - p0.y| := by
    split_ifs with h
    · rw [one_mul, abs_of_nonneg (by omega)]
    · rw [neg_one_mul, ← abs_neg, abs_of_nonneg (by omega)]
  apply lineLoop_isSome _ _ (abs_nonneg _) (abs_nonneg _) _ _
      (by split_ifs <;> simp) (by split_ifs <;> simp) p1 _ rfl
  · rw [LineInv, hrx, hry]
    have h1 := abs_nonneg (p1.x - p0.x)
    have h2 := abs_nonneg (p1.y - p0.y)
    refine ⟨h1, le_refl _, h2, le_refl _, by ring, ?_⟩
    split_ifs with h <;> omega
  · rw [hrx, hry]
    omega

theorem lineOpt_eq_some (p0 p1 : Point2) : lineOpt p0 p1 = some (bresenham p0 p1) := by
  have h := lineOpt_isSome p0 p1
  cases hl : lineOpt p0 p1 with
  | none => rw [hl] at h; cases h
  | some l => rw [bresenham, hl]; rfl

theorem lineLoop_head {p1 : Point2} {dx dy sx sy : Int} :
    ∀ {fuel : Nat} {p0 : Point2} {e : Int} {l : List Point2},
      lineLoop p1 dx dy sx sy fuel p0 e = some l → l.head? = some p0 := by
  intro fuel
  induction fuel with
  | zero => intro p0 e l h; cases h
  | succ n ih =>
    intro p0 e l h
    rw [lineLoop] at h
    by_cases hp : p0 = p1
    · rw [if_pos hp] at h
      cases h
      rfl
    · rw [if_neg hp] at h
      cases hrec : lineLoop p1 dx dy sx sy n (lineStep dx dy sx sy p0 e).1
          (lineStep dx dy sx sy p0 e).2 with
      | none => rw [hrec] at h; cases h
      | some l2 => rw [hrec] at h; cases h; rfl

theorem lineLoop_last {p1 : Point2} {dx dy sx sy : Int} :
    ∀ {fuel : Nat} {p0 : Point2} {e : Int} {l : List Point2},
      lineLoop p1 dx dy sx sy fuel p0 e = some l → l.getLast? = some p1 := by
  intro fuel
  induction fuel with
  | zero => intro p0 e l h; cases h
  | succ n ih =>
    intro p0 e l h
    rw [lineLoop] at h
    by_cases hp : p0 = p1
    · rw [if_pos hp] at h
      cases h
      rw [hp]
      rfl
    · rw [if_neg hp] at h
      cases hrec : lineLoop p1 dx dy sx sy n (lineStep dx dy sx sy p0 e).1
          (lineStep dx dy sx sy p0 e).2 with
      | none => rw [hrec] at h; cases h
      | some l2 =>
        rw [hrec] at h
        cases h
        have h2 := ih hrec
        cases l2 with
        | nil => cases h2
        | cons a t => rw [List.getLast?_cons_cons]; exact h2

theorem lineLoop_chain {p1 : Point2} {dx dy sx sy : Int}
    (hsx : sx = 1 ∨ sx = -1) (hsy : sy = 1 ∨ sy = -1) :
    ∀ {fuel : Nat} {p0 : Point2} {e : Int} {l : List Point2},
      lineLoop p1 dx dy sx sy fuel p0 e = some l → List.Chain' adjacentPt l := by
  intro fuel
  induction fuel with
  | zero => intro p0 e l h; cases h
  | succ n ih =>
    intro p0 e l h
    rw [lineLoop] at h
    by_cases hp : p0 = p1
    · rw [if_pos hp] at h
      cases h
      exact List.chain'_singleton _
    · rw [if_neg hp] at h
      cases hrec : lineLoop p1 dx dy sx sy n (lineStep dx dy sx sy p0 e).1
          (lineStep dx dy sx sy p0 e).2 with
      | none => rw [hrec] at h; cases h
      | some l2 =>
        rw [hrec] at h
        cases h
        refine (ih hrec).cons' ?_
        intro b hb
        rw [lineLoop_head hrec] at hb
        cases hb
        constructor
        · rw [lineStep_x]
          split_ifs <;> rcases hsx with h1 | h1 <;> subst h1 <;> omega
        · rw [lineStep_y]
          split_ifs <;> rcases hsy with h1 | h1 <;> subst h1 <;> omega

/-- **C10.** `Brush::line` terminates for every pair of integer
endpoints: the fueled embedding of the stepping loop reaches the
`p0 == p1` break within `dx + dy + 1` iterations, so `bresenham` is the
list the loop pushes. -/
theorem claim_c10_line_terminates (p0 p1 : Point2) :
    lineOpt p0 p1 = some (bresenham p0 p1) := by
  have h := lineOpt_isSome p0 p1
  cases hl : lineOpt p0 p1 with
  | none => rw [hl] at h; cases h
  | some l => rw [bresenham, hl]; rfl

/-- **C6 (amended).** For all integer endpoints, the line rasterizer's
output starts with `p0`, ends with `p1`, and consecutive entries differ
by at most 1 in each axis.  The claim's fourth clause — that the output
for `(b, a)` is the reverse of the output for `(a, b)` — is false (see
the counterexample) and is dropped. -/
theorem claim_c6_line_shape (p0 p1 : Point2) :
    (bresenham p0 p1).head? = some p0 ∧
    (bresenham p0 p1).getLast? = some p1 ∧
    List.Chain' adjacentPt (bresenham p0 p1) := by
  have h := lineOpt_eq_some p0 p1
  rw [lineOpt] at h
  refine ⟨lineLoop_head h, lineLoop_last h, ?_⟩
  exact lineLoop_chain (by split_ifs <;> simp) (by split_ifs <;> simp) h

theorem claim_c6_counterexample :
    bresenham ⟨0, 0⟩ ⟨2, 1⟩ = [⟨0, 0⟩, ⟨1, 0⟩, ⟨2, 1⟩] ∧
    bresenham ⟨2, 1⟩ ⟨0, 0⟩ = [⟨2, 1⟩, ⟨1, 1⟩, ⟨0, 0⟩] ∧
    (bresenham ⟨0, 0⟩ ⟨2, 1⟩).reverse ≠ bresenham ⟨2, 1⟩ ⟨0, 0⟩ := by
  refine ⟨by decide, by decide, by decide⟩

/-!
## Corner-filter lemmas
-/

theorem dropLast_append_getLast? :
    ∀ {t : List Point2}, t ≠ [] → t.dropLast ++ t.getLast?.toList = t := by
  intro t
  induction t with
  | nil => intro h; cases h rfl
  | cons x r ih =>
    intro _
    cases r with
    | nil => rfl
    | cons y r2 =>
      have := ih (by simp)
      rw [List.dropLast_cons₂, List.getLast?_cons_cons]
      rw [List.cons_append, this]

theorem hasRightAngle_cons {p c n : Point2} {rest : List Point2}
    (h : hasRightAngle (p :: c :: n :: rest) = false) :
    ¬ rightAngleCorner p c n ∧ hasRightAngle (c :: n :: rest) = false := by
  rw [hasRightAngle, Bool.or_eq_false_iff] at h
  exact ⟨by simpa using h.1, h.2⟩

theorem filterGo_no_corner :
    ∀ (s : List Point2), hasRightAngle s = false → filterGo s = s.tail.dropLast := by
  intro s
  induction s with
  | nil => intro _; rfl
  | cons a t ih =>
    intro h
    cases t with
    | nil => rfl
    | cons c t2 =>
      cases t2 with
      | nil => rfl
      | cons n rest =>
        obtain ⟨hnc, htail⟩ := hasRightAngle_cons h
        rw [filterGo, if_neg hnc, ih htail]
        rw [List.tail_cons, List.tail_cons, List.dropLast_cons₂]

theorem filter_no_corner :
    ∀ {s : List Point2}, hasRightAngle s = false → 2 ≤ s.length →
      Brush.filter s = s := by
  intro s h h2
  cases s with
  | nil => simp at h2
  | cons a t =>
    cases t with
    | nil => simp at h2
    | cons b t2 =>
      rw [Brush.filter, filterGo_no_corner _ h]
      rw [List.tail_cons]
      have hgl : (a :: b :: t2).getLast? = (b :: t2).getLast? := List.getLast?_cons_cons ..
      rw [hgl]
      show [a] ++ ((b :: t2).dropLast ++ (b :: t2).getLast?.toList) = a :: b :: t2
      rw [dropLast_append_getLast? (by simp)]
      rfl

/-- **C4.** On an input with no right-angle triple the corner filter is
idempotent (a second application changes nothing), and on every input
it preserves the first and last elements verbatim. -/
theorem claim_c4_corner_filter (s : List Point2) :
    (hasRightAngle s = false → Brush.filter (Brush.filter s) = Brush.filter s) ∧
    (Brush.filter s).head? = s.head? ∧
    (Brush.filter s).getLast? = s.getLast? := by
  refine ⟨?_, ?_, ?_⟩
  · intro h
    cases s with
    | nil => rfl
    | cons a t =>
      cases t with
      | nil => rfl
      | cons b t2 =>
        rw [filter_no_corner h (by simp), filter_no_corner h (by simp)]
  · cases s with
    | nil => rfl
    | cons a t => rfl
  · cases s with
    | nil => rfl
    | cons a t =>
      cases hx : (a :: t).getLast? with
      | none => simp at hx
      | some x =>
        rw [Brush.filter, hx]
        show (((a :: t).head?.toList ++ filterGo (a :: t)) ++ [x]).getLast? = some x
        rw [List.getLast?_concat]

theorem claim_c4_witness :
    hasRightAngle [⟨0, 0⟩, ⟨3, 4⟩, ⟨9, 9⟩] = false ∧
    Brush.filter (Brush.filter [⟨0, 0⟩, ⟨3, 4⟩, ⟨9, 9⟩]) =
      Brush.filter [⟨0, 0⟩, ⟨3, 4⟩, ⟨9, 9⟩] :=
  ⟨by decide, (claim_c4_corner_filter [⟨0, 0⟩, ⟨3, 4⟩, ⟨9, 9⟩]).1 (by decide)⟩

/-!
## Draw-step lemmas
-/

theorem draw_started {se : Point2 → Point2 → Nat → Point2} {b : Brush} {p : Point2}
    {ex : ViewExtent} (h : b.state = .drawStarted ex) :
    Brush.draw se b p = some { b with
      prev := p
      curr := p
      stroke := strokeAfterDraw se b.modes p p b.stroke
      state := .drawing ex } := by
  rw [Brush.draw.eq_def, h]

theorem draw_drawing {se : Point2 → Point2 → Nat → Point2} {b : Brush} {p : Point2}
    {ex : ViewExtent} (h : b.state = .drawing ex) :
    Brush.draw se b p = some { b with
      prev := b.curr
      curr := p
      stroke := strokeAfterDraw se b.modes b.curr p b.stroke
      state := .drawing ex } := by
  rw [Brush.draw.eq_def, h]

theorem strokeAfterDraw_line_anchor (se : Point2 → Point2 → Nat → Point2)
    (modes : List BrushMode) (prev curr : Point2) (o₁ o₂ : List Point2)
    (hl : (lineModeOf modes).isSome = true) (h : o₁.head? = o₂.head?) :
    strokeAfterDraw se modes prev curr o₁ = strokeAfterDraw se modes prev curr o₂ := by
  obtain ⟨lm, hlm⟩ := Option.isSome_iff_exists.mp hl
  have hline := lineModeOf_isLine hlm
  cases lm with
  | line snap =>
    rw [strokeAfterDraw.eq_def, strokeAfterDraw.eq_def, hlm]
    dsimp only
    rw [h]
  | _ => simp [BrushMode.isLine] at hline

theorem strokeAfterDraw_append (se : Point2 → Point2 → Nat → Point2)
    (modes : List BrushMode) (prev curr : Point2) (old : List Point2)
    (hl : lineModeOf modes = none) :
    strokeAfterDraw se modes prev curr old =
      (if decide (BrushMode.perfect ∈ modes) = true
       then Brush.filter (dedupConsec (old ++ bresenham prev curr))
       else dedupConsec (old ++ bresenham prev curr)) := by
  rw [strokeAfterDraw.eq_def, hl]

theorem lineLoop_self (p1 : Point2) (dx dy sx sy : Int) (fuel : Nat) (e : Int) :
    lineLoop p1 dx dy sx sy (fuel + 1) p1 e = some [p1] := by
  rw [lineLoop, if_pos rfl]

theorem bresenham_refl (p : Point2) : bresenham p p = [p] := by
  rw [bresenham]
  show (lineLoop p |p.x - p.x| |p.y - p.y| (if p.x < p.x then 1 else -1)
      (if p.y < p.y then 1 else -1) ((|p.x - p.x| + |p.y - p.y|).toNat + 1) p
      (if |p.x - p.x| > |p.y - p.y| then |p.x - p.x| / 2
       else -(|p.y - p.y| / 2))).getD [] = [p]
  rw [lineLoop_self]
  rfl

theorem strokeAfterDraw_nil (se : Point2 → Point2 → Nat → Point2)
    (modes : List BrushMode) (p : Point2) (hdeg : ∀ q k, se q q k = q) :
    strokeAfterDraw se modes p p [] =
      (if decide (BrushMode.perfect ∈ modes) = true then [p, p] else [p]) := by
  rw [strokeAfterDraw.eq_def]
  cases hl : lineModeOf modes with
  | none =>
    dsimp only
    rw [List.nil_append, bresenham_refl]
    split_ifs <;> rfl
  | some lm =>
    have hline := lineModeOf_isLine hl
    cases lm with
    | line snap =>
      dsimp only
      cases snap with
      | none =>
        rw [show (([] : List Point2).head?.getD p) = p from rfl, bresenham_refl]
        split_ifs <;> rfl
      | some s =>
        rw [show (([] : List Point2).head?.getD p) = p from rfl]
        dsimp only
        rw [hdeg p s, bresenham_refl]
        split_ifs <;> rfl
    | _ => simp [BrushMode.isLine] at hline

/-- **C1 (amended).** Only in a `Line(_)` mode is the stroke buffer
rebuilt from scratch each `draw` call — there as a function of the
anchor (the buffer's first point, or the incoming point when empty),
the new cursor sample, and the modes.  In every non-line mode
configuration, `draw` *appends* the segment from the previous to the
current sample onto the existing buffer, dedups consecutive duplicates
over the whole buffer, and then (with `Perfect`) corner-filters the
whole buffer — so the buffer retains points from earlier `draw` calls
and is not a function of the last two samples and modes alone (see the
counterexample). -/
theorem claim_c1_stroke_rebuild :
    (∀ (se : Point2 → Point2 → Nat → Point2) (b : Brush) (p : Point2) (ex : ViewExtent),
      b.state = .drawStarted ex →
      (Brush.draw se b p).map Brush.stroke = some (strokeAfterDraw se b.modes p p b.stroke)) ∧
    (∀ (se : Point2 → Point2 → Nat → Point2) (b : Brush) (p : Point2) (ex : ViewExtent),
      b.state = .drawing ex →
      (Brush.draw se b p).map Brush.stroke =
        some (strokeAfterDraw se b.modes b.curr p b.stroke)) ∧
    (∀ (se : Point2 → Point2 → Nat → Point2) (modes : List BrushMode)
       (prev curr : Point2) (o₁ o₂ : List Point2),
      (lineModeOf modes).isSome = true → o₁.head? = o₂.head? →
      strokeAfterDraw se modes prev curr o₁ = strokeAfterDraw se modes prev curr o₂) ∧
    (∀ (se : Point2 → Point2 → Nat → Point2) (modes : List BrushMode)
       (prev curr : Point2) (old : List Point2),
      lineModeOf modes = none →
      strokeAfterDraw se modes prev curr old =
        (if decide (BrushMode.perfect ∈ modes) = true
         then Brush.filter (dedupConsec (old ++ bresenham prev curr))
         else dedupConsec (old ++ bresenham prev curr))) := by
  refine ⟨?_, ?_, ?_, ?_⟩
  · intro se b p ex h
    rw [draw_started h]
    rfl
  · intro se b p ex h
    rw [draw_drawing h]
    rfl
  · exact strokeAfterDraw_line_anchor
  · exact strokeAfterDraw_append

theorem claim_c1_witness :
    (Brush.draw (fun a _ _ => a)
        { Brush.default with state := .drawStarted ⟨1, 1, 1⟩ } ⟨0, 0⟩).map Brush.stroke =
      some (strokeAfterDraw (fun a _ _ => a)
        ({ Brush.default with state := .drawStarted ⟨1, 1, 1⟩ }).modes ⟨0, 0⟩ ⟨0, 0⟩
        ({ Brush.default with state := .drawStarted ⟨1, 1, 1⟩ }).stroke) :=
  claim_c1_stroke_rebuild.1 (fun a _ _ => a)
    { Brush.default with state := .drawStarted ⟨1, 1, 1⟩ } ⟨0, 0⟩ ⟨1, 1, 1⟩ rfl

theorem claim_c1_counterexample :
    (((Brush.start_drawing (fun a _ _ => a) Brush.default ⟨0, 0⟩ Rgba8.transparent
          ⟨4, 4, 1⟩).bind
        (fun b => b.draw (fun a _ _ => a) ⟨2, 0⟩)).bind
        (fun b => b.draw (fun a _ _ => a) ⟨2, 2⟩)).map
        (fun b => (b.prev, b.curr, b.modes, b.stroke)) =
      some (⟨2, 0⟩, ⟨2, 2⟩, [],
        [⟨0, 0⟩, ⟨1, 0⟩, ⟨2, 0⟩, ⟨2, 1⟩, ⟨2, 2⟩]) ∧
    ((Brush.start_drawing (fun a _ _ => a) Brush.default ⟨2, 0⟩ Rgba8.transparent
          ⟨4, 4, 1⟩).bind
        (fun b => b.draw (fun a _ _ => a) ⟨2, 2⟩)).map
        (fun b => (b.prev, b.curr, b.modes, b.stroke)) =
      some (⟨2, 0⟩, ⟨2, 2⟩, [], [⟨2, 0⟩, ⟨2, 1⟩, ⟨2, 2⟩]) ∧
    ([⟨0, 0⟩, ⟨1, 0⟩, ⟨2, 0⟩, ⟨2, 1⟩, ⟨2, 2⟩] : List Point2) ≠
      [⟨2, 0⟩, ⟨2, 1⟩, ⟨2, 2⟩] := by
  refine ⟨by decide, by decide, by decide⟩

/-- **C3 (amended).** `line(a, a)` outputs exactly `[a]`, and after
`start_drawing` at `a` the stroke buffer is `[a]` when `Perfect` is
inactive — but `[a, a]` when `Perfect` is active, because the corner
filter extends both the first and the last element of a singleton
buffer (see the counterexample).  Either way no error occurs and the
buffer denotes the single pixel `a`. -/
theorem claim_c3_degenerate :
    (∀ p : Point2, bresenham p p = [p]) ∧
    (∀ (se : Point2 → Point2 → Nat → Point2) (b : Brush) (p : Point2) (c : Rgba8)
       (ex : ViewExtent), (∀ q k, se q q k = q) →
      (Brush.start_drawing se b p c ex).map Brush.stroke =
        some (if decide (BrushMode.perfect ∈ b.modes) = true then [p, p] else [p])) := by
  refine ⟨bresenham_refl, ?_⟩
  intro se b p c ex hdeg
  rw [Brush.start_drawing, draw_started rfl]
  show some (strokeAfterDraw se b.modes p p []) = _
  rw [strokeAfterDraw_nil se b.modes p hdeg]

theorem claim_c3_witness :
    (Brush.start_drawing (fun a _ _ => a) Brush.default ⟨3, 4⟩ Rgba8.transparent
        ⟨1, 1, 1⟩).map Brush.stroke =
      some (if decide (BrushMode.perfect ∈ Brush.default.modes) = true
            then [⟨3, 4⟩, ⟨3, 4⟩] else [⟨3, 4⟩]) :=
  claim_c3_degenerate.2 (fun a _ _ => a) Brush.default ⟨3, 4⟩ Rgba8.transparent
    ⟨1, 1, 1⟩ (fun _ _ => rfl)

theorem claim_c3_counterexample :
    (Brush.start_drawing (fun a _ _ => a) (Brush.default.set .perfect).1 ⟨0, 0⟩
        Rgba8.transparent ⟨1, 1, 1⟩).map Brush.stroke = some [⟨0, 0⟩, ⟨0, 0⟩] ∧
    (Brush.start_drawing (fun a _ _ => a) (Brush.default.set .perfect).1 ⟨0, 0⟩
        Rgba8.transparent ⟨1, 1, 1⟩).map (fun b => b.stroke.length) = some 2 := by
  refine ⟨by decide, by decide⟩

/-!
## Expansion and circle-rasterizer claims
-/

theorem expand_multi_eq (b : Brush) (p : Point2) (ex : ViewExtent)
    (hm : b.is_set .multi = true) (hx : b.is_set .xsym = false)
    (hy : b.is_set .ysym = false) :
    b.expand p ex =
      p :: (List.range (((ex.nframes : Int) - Int.tdiv p.x ex.fw).toNat)).map
        (fun i : Nat => ⟨p.x + (i : Int) * (ex.fw : Int), p.y⟩) := by
  rw [Brush.expand, hx, hy, hm]
  simp

/-- **C9.** With `Multi` active and neither symmetry mode active, for
every point whose frame index `p.x / fw` lies in `[0, nframes)`,
`expand` yields, as a set, exactly `p` plus a copy of `p` shifted by
`+fw` for every subsequent frame index up to `nframes - 1`. -/
theorem claim_c9_multi_expand (b : Brush) (p : Point2) (ex : ViewExtent)
    (hm : b.is_set .multi = true) (hx : b.is_set .xsym = false)
    (hy : b.is_set .ysym = false) (_hfw : 0 < ex.fw)
    (hfi : 0 ≤ Int.tdiv p.x ex.fw ∧ Int.tdiv p.x ex.fw < (ex.nframes : Int)) :
    ∀ q : Point2, q ∈ b.expand p ex ↔
      ∃ i : Nat, (i : Int) ≤ (ex.nframes : Int) - 1 - Int.tdiv p.x ex.fw ∧
        q = ⟨p.x + (i : Int) * (ex.fw : Int), p.y⟩ := by
  intro q
  rw [expand_multi_eq b p ex hm hx hy]
  simp only [List.mem_cons, List.mem_map, List.mem_range]
  constructor
  · intro h
    rcases h with h | ⟨i, hi, hqe⟩
    · refine ⟨0, by omega, ?_⟩
      subst h
      cases q
      simp
    · have hlt := Int.lt_toNat.mp hi
      exact ⟨i, by omega, hqe.symm⟩
  · rintro ⟨i, hi, rfl⟩
    refine Or.inr ⟨i, Int.lt_toNat.mpr (by omega), rfl⟩

theorem claim_c9_witness :
    (⟨12, 5⟩ : Point2) ∈ (Brush.default.set .multi).1.expand ⟨2, 5⟩ ⟨10, 10, 2⟩ ↔
      ∃ i : Nat, (i : Int) ≤ ((2 : Nat) : Int) - 1 - Int.tdiv 2 10 ∧
        (⟨12, 5⟩ : Point2) = ⟨2 + (i : Int) * ((10 : Nat) : Int), 5⟩ :=
  claim_c9_multi_expand (Brush.default.set .multi).1 ⟨2, 5⟩ ⟨10, 10, 2⟩
    (by decide) (by decide) (by decide) (by decide) (by decide) ⟨12, 5⟩

/-- **C2 (amended).** The bias of the circular rasterizer is `1/2` when
`2 < diameter ≤ 3` and `0` otherwise (in particular `0`, not `1/2`, for
diameter `2`, contrary to the claim's `1 < diameter ≤ 3` rule);
`radius = diameter/2 - bias`, so diameter `2` paints with radius `1`,
and with center `(1.5, 1.5)` in a `4×4` field exactly the `2×2` block
`{1,2}×{1,2}` is painted. -/
theorem claim_c2_circle_bias :
    (∀ d : ℚ, circleBias d = if 2 < d ∧ d ≤ 3 then 1/2 else 0) ∧
    circleBias 2 = 0 ∧
    circleRadius 2 = 1 ∧
    (∀ x : Nat, x < 4 → ∀ y : Nat, y < 4 →
      Brush.paint 4 4 (3/2) (3/2) 2 Rgba8.white (fun _ _ => Rgba8.transparent) x y =
        (if (x = 1 ∨ x = 2) ∧ (y = 1 ∨ y = 2) then Rgba8.white
         else Rgba8.transparent)) := by
  refine ⟨?_, by norm_num [circleBias], by norm_num [circleRadius, circleBias], ?_⟩
  · intro d
    rw [circleBias]
    by_cases h1 : d ≤ 2
    · rw [if_pos h1, if_neg (by rintro ⟨hc, _⟩; linarith)]
    · by_cases h2 : d ≤ 3
      · rw [if_neg h1, if_pos h2, if_pos ⟨by linarith, h2⟩]
      · rw [if_neg h1, if_neg h2, if_neg (by rintro ⟨_, hc⟩; exact h2 hc)]
  · intro x hx y hy
    interval_cases x <;> interval_cases y <;>
      norm_num [Brush.paint, paintCovers, circleRadius, circleBias]

theorem claim_c2_witness :
    Brush.paint 4 4 (3/2) (3/2) 2 Rgba8.white (fun _ _ => Rgba8.transparent) 1 1 =
      Rgba8.white := by
  have h := claim_c2_circle_bias.2.2.2 1 (by norm_num) 1 (by norm_num)
  simpa using h

theorem claim_c2_counterexample :
    ((1 : ℚ) < 2 ∧ (2 : ℚ) ≤ 3) ∧ circleBias 2 = 0 ∧ circleBias 2 ≠ 1/2 := by
  refine ⟨⟨by norm_num, by norm_num⟩, by norm_num [circleBias], by norm_num [circleBias]⟩
